import Mathlib

/-!
tshwctl: FPGA register utility of the TS-4900

A shallow embedding of `src/tshwctl.c` and the properties its specification
states about it.

* C `int` is 32 bits wide; signed overflow of a product wraps (two's
  complement), which is only reached by `bits * 100000000` for `bits` above
  21.  An `int` division by zero, and the division of `INT_MIN` by `-1`, whose
  quotient is no `int`, raise `SIGFPE`: the process is killed.
* `float` and `double` are IEEE 754 binary32 and binary64, every operation
  rounded to nearest, ties to even, evaluated in the type of its operands.
  A finite floating-point value is kept exactly, as a significand and a binary
  exponent (`Flt`).  The magnitudes this program produces lie well inside the
  normal range of both formats, so overflow, subnormals and NaN are not
  modelled.
* The register transport (`fpga_init`, `fpeek8`, `fpoke8` of `fpga.h`) and the
  C library (`getopt_long`, `atoi`, `strtoull`) are not part of the source
  file; the transport's answers and the library's results are parameters
  (`Env`), and every call to the transport is recorded in a trace, with the
  arguments as the caller passes them.
-/

namespace Tshwctl

/-! ## C arithmetic -/

/-- Reduce an integer to the range of a 32-bit two's-complement `int`. -/
def wrapInt32 (z : Int) : Int := (z + 2 ^ 31) % 2 ^ 32 - 2 ^ 31

/-- The `int` division `a / b` of C: truncating, and not defined (`SIGFPE`)
for `b = 0` and for `INT_MIN / -1`. -/
def cIntDiv (a b : Int) : Option Int :=
  if b = 0 ∨ (a = -2 ^ 31 ∧ b = -1) then none else some (Int.tdiv a b)

/-- Conversion of a `long` to `uint32_t`. -/
def toUInt32 (z : Int) : Nat := (z % 2 ^ 32).toNat

/-- A finite binary floating-point value, `m * 2 ^ e`. -/
structure Flt where
  m : Int
  e : Int
deriving DecidableEq

/-- Numerator of the value as a fraction `num / den`. -/
def Flt.num (x : Flt) : Int := x.m * 2 ^ x.e.toNat

/-- Denominator of the value as a fraction `num / den`. -/
def Flt.den (x : Flt) : Nat := 2 ^ (-x.e).toNat

/-- The rational number a floating-point value stands for. -/
def Flt.toRat (x : Flt) : ℚ := (x.m : ℚ) * (2 : ℚ) ^ x.e

/-- Sign flip. -/
def Flt.neg (x : Flt) : Flt := ⟨-x.m, x.e⟩

/-- Number of binary digits of `n`, with `fuel` halving steps available. -/
def bitLengthAux : Nat → Nat → Nat
  | 0, _ => 0
  | fuel + 1, n => if n = 0 then 0 else bitLengthAux fuel (n / 2) + 1

/-- Number of binary digits of `n` (`0` for `0`). -/
def bitLength (n : Nat) : Nat := bitLengthAux n n

/-- The integer nearest to `n / d`, a tie going to the even neighbour. -/
def divRoundEven (n d : Nat) : Nat :=
  let q := n / d
  let r := n % d
  if 2 * r < d then q
  else if d < 2 * r then q + 1
  else if q % 2 = 0 then q else q + 1

/-- Round the non-negative fraction `n / d` to `p` significant bits, to
nearest, ties to even.  With `l` the position of the leading bit of `n / d`,
the result is the nearest multiple of `2 ^ (l - (p - 1))`. -/
def roundRatio (p n d : Nat) : Flt :=
  if n = 0 then ⟨0, 0⟩ else
    let k : Int := (bitLength n : Int) - (bitLength d : Int)
    let l : Int := if d * 2 ^ k.toNat ≤ n * 2 ^ (-k).toNat then k else k - 1
    let e : Int := l - ((p : Int) - 1)
    ⟨(divRoundEven (n * 2 ^ (-e).toNat) (d * 2 ^ e.toNat) : Nat), e⟩

/-- Round the signed fraction `n / d` to `p` significant bits. -/
def roundSigned (p : Nat) (n : Int) (d : Nat) : Flt :=
  if n < 0 then (roundRatio p n.natAbs d).neg else roundRatio p n.natAbs d

/-- Conversion of an `int` to `float`. -/
def intToFloat (z : Int) : Flt := roundSigned 24 z 1

/-- Conversion of a value to the format with `p` significant bits. -/
def Flt.round (p : Nat) (x : Flt) : Flt := roundSigned p x.num x.den

/-- Product in the format with `p` significant bits. -/
def Flt.mul (p : Nat) (x y : Flt) : Flt :=
  roundSigned p (x.num * y.num) (x.den * y.den)

/-- Quotient in the format with `p` significant bits (the divisor is never
zero in this program). -/
def Flt.div (p : Nat) (x y : Flt) : Flt :=
  roundSigned p (x.num * y.den * y.num.sign) (x.den * y.num.natAbs)

/-- The C library's `lround`: nearest integer, halfway cases away from zero. -/
def lround (x : Flt) : Int :=
  x.m.sign * (((2 * x.num.natAbs + x.den) / (2 * x.den) : Nat) : Int)

/-- The `double` literal `9.5`. -/
def lit_9_5 : Flt := ⟨19, -1⟩

/-- The `double` literal `0.5`. -/
def lit_0_5 : Flt := ⟨1, -1⟩

/-- The `double` literal `41.67`. -/
def lit_41_67 : Flt := roundRatio 53 4167 100

/-! ## The timing calculator -/

/-- The constant `const float fpga_clk = 41.67;`: the `double` literal
converted to `float`. -/
def fpga_clk : Flt := Flt.round 24 lit_41_67

/-- The function `autotx_bitstoclks`, returning `(*cnt1, *cnt2)`, or `none`
when the process is killed inside it.
`clk = (bits*100000000)/baud` is an `int` product and an `int` division
(truncating, `SIGFPE` where it is not defined) whose result is converted to
`float`; `(clk*9.5) / fpga_clk` is evaluated in `double`; `lround` gives a
`long` that is stored in a `uint32_t`. -/
def autotx_bitstoclks (bits baud : Int) : Option (Nat × Nat) :=
  match cIntDiv (wrapInt32 (bits * 100000000)) baud with
  | none => none
  | some q =>
    let clk : Flt := intToFloat q
    let cnt1 := toUInt32 (lround (Flt.div 53 (Flt.mul 53 clk lit_9_5) fpga_clk))
    let cnt2 := toUInt32 (lround (Flt.div 53 (Flt.mul 53 clk lit_0_5) fpga_clk))
    some (cnt1, cnt2)

/-! ## The timing formula as the specification words it -/

/-- Round to the nearest integer, halfway cases away from zero. -/
def roundHalfAway (x : ℚ) : Int :=
  if 0 ≤ x then ⌊x + 1 / 2⌋ else -⌊-x + 1 / 2⌋

/-- The specification's `byteTimeNs = (frameBits × 1e8) / baudRate`. -/
def byteTimeNs (frameBits baudRate : Int) : ℚ :=
  ((frameBits : ℚ) * 10 ^ 8) / (baudRate : ℚ)

/-- The specification's count `round(byteTimeNs × factor / period)`. -/
def specCount (factor period : ℚ) (frameBits baudRate : Int) : Int :=
  roundHalfAway (byteTimeNs frameBits baudRate * factor / period)

/-- The period of the 24 MHz clock as the `float` constant holds it,
`10923540 / 2 ^ 18`. -/
def fpgaClkNs : ℚ := 41.6699981689453125

/-! ## Register accesses and output -/

/-- What the program does to the outside world, in order. -/
inductive Event
  | peek (fd : Int) (addr : Int)
  | poke (fd : Int) (addr : Int) (val : Nat)
  | stdout (s : String)
  | stderr (s : String)
  | perror (s : String)
  | close (fd : Int)
deriving DecidableEq

/-- Whether an event is a register access. -/
def Event.isAccess : Event → Bool
  | .peek _ _ => true
  | .poke _ _ _ => true
  | _ => false

/-- What the program takes from outside the source file: the descriptor
`fpga_init()` returns, the value `fpeek8` returns (it may depend on the
register accesses made so far), the C library's number parsers, and
`argv[0]`. -/
structure Env where
  fpga_init : Int
  fpeek8 : List Event → Int → Int → Nat
  atoi : String → Int
  strtoull : String → Nat
  argv0 : String

/-- A call `fpeek8(fd, addr)` after the events `tr`: the value returned. -/
def Env.peek (env : Env) (tr : List Event) (fd addr : Int) : Nat :=
  env.fpeek8 (tr.filter Event.isAccess) fd addr

/-- The function `fpgadio_read`, called after the events `tr`: the value
returned and the events of the call.  `data` is a `uint8_t`. -/
def fpgadio_read (env : Env) (twifd dio : Int) (tr : List Event) : Int × List Event :=
  let data : Nat := env.peek tr twifd dio % 256
  if data &&& 0x4 ≠ 0 then (1, [Event.peek twifd dio]) else (0, [Event.peek twifd dio])

/-- The function `fpgadio_set`: the events of the call. -/
def fpgadio_set (twifd dio value : Int) : List Event :=
  if value ≠ 0 then [Event.poke twifd dio 0x3] else [Event.poke twifd dio 0x1]

/-- The function `fpgadio_ddr`: the events of the call. -/
def fpgadio_ddr (twifd dio value : Int) : List Event :=
  if value ≠ 0 then [Event.poke twifd dio 0x1] else [Event.poke twifd dio 0x0]

/-- The text `usage` prints to `stderr`. -/
def usageText (argv0 : String) : String :=
  "Usage: " ++ argv0 ++ " [OPTIONS] ...\n" ++
  "Technologic Systems TS-4900 Utility\n" ++
  "\n" ++
  "  -p, --getin <dio>      Returns the input value of an FPGA DIO\n" ++
  "  -e, --setout <dio>     Sets an FPGA DIO output value high\n" ++
  "  -l, --clrout <dio>     Sets an FPGA DIO output value low\n" ++
  "  -d, --ddrout <dio>     Set FPGA DIO to an output\n" ++
  "  -r, --ddrin <dio>      Set FPGA DIO to an input\n" ++
  "  -m, --addr <address>   Sets up the address for a peek/poke\n" ++
  "  -v, --poke <value>     Writes the value to the specified address\n" ++
  "  -t, --peek             Reads from the specified address\n" ++
  "  -b, --baud <baud>      Specifies the baud rate for auto485\n" ++
  "  -x, --bits <bits>      Specifies the bit size for auto485 (8n1 = 10)\n" ++
  "  -h, --help             This message\n" ++
  "\n"

/-- The function `usage`: the events of the call. -/
def usage (argv0 : String) : List Event := [Event.stderr (usageText argv0)]

/-- Upper-case hexadecimal digits of `n`, as `%X` prints them. -/
def hexUpper (n : Nat) : String :=
  String.mk ((Nat.toDigits 16 n).map Char.toUpper)

/-- The three bytes the commit code passes to `fpoke8` for one counter:
`(uint8_t)((v & 0xff0000) >> 16)`, `(uint8_t)((v & 0xff00) >> 8)`,
`(uint8_t)(v & 0xff)`. -/
def counterBytes (v : Nat) : Nat × Nat × Nat :=
  (((v &&& 0xff0000) >>> 16) % 256, ((v &&& 0xff00) >>> 8) % 256, (v &&& 0xff) % 256)

/-- The six `fpoke8` calls of one commit arm: `cnt1` to `base`, `base + 1`,
`base + 2` and `cnt2` to `base + 3`, `base + 4`, `base + 5`.  The arm for `q`
has `base = 32`, the arm for `w` has `base = 38`. -/
def commitCounters (twifd base : Int) (cnt1 cnt2 : Nat) : List Event :=
  [Event.poke twifd base (counterBytes cnt1).1,
   Event.poke twifd (base + 1) (counterBytes cnt1).2.1,
   Event.poke twifd (base + 2) (counterBytes cnt1).2.2,
   Event.poke twifd (base + 3) (counterBytes cnt2).1,
   Event.poke twifd (base + 4) (counterBytes cnt2).2.1,
   Event.poke twifd (base + 5) (counterBytes cnt2).2.2]

/-! ## The flag loop of `main` -/

/-- The locals of `main` that live across flags: `addr` (a `uint16_t`),
`opt_addr`, `baud` and `bits`. -/
structure State where
  addr : Nat
  opt_addr : Int
  baud : Int
  bits : Int
deriving DecidableEq

/-- The locals as `main` initialises them. -/
def State.init : State := ⟨0, 0, 0, 0⟩

/-- Where control is after some flags: still in the loop, with the locals
`s`, or returned from `main` with `status`, or nowhere, the process having
been killed by `SIGFPE`; `tr` holds the events. -/
inductive Step
  | next (s : State) (tr : List Event)
  | ret (status : Int) (tr : List Event)
  | killed (tr : List Event)
deriving DecidableEq

/-- The events of a step. -/
def Step.trace : Step → List Event
  | Step.next _ tr => tr
  | Step.ret _ tr => tr
  | Step.killed tr => tr

/-- The same step with other events. -/
def Step.withTrace : Step → List Event → Step
  | Step.next s _, tr => Step.next s tr
  | Step.ret status _, tr => Step.ret status tr
  | Step.killed _, tr => Step.killed tr

/-- The message of the `v` and `t` arms when no address was given. -/
def noAddressMsg : String := "No address specified\n"

/-- The message of the `q` and `w` arms when `baud` or `bits` is zero. -/
def noBaudMsg : String := "You must set baud and base to a non-zero value\n"

/-- One commit arm (`case 'q'` with `base = 32`, `case 'w'` with
`base = 38`). -/
def commitArm (env : Env) (twifd base : Int) (optarg : String) (s : State) : Step :=
  if s.baud = 0 ∨ s.bits = 0 then
    Step.ret 1 [Event.stderr noBaudMsg]
  else if env.atoi optarg = 1 then
    match autotx_bitstoclks s.bits s.baud with
    | some cnt => Step.next s (commitCounters twifd base cnt.1 cnt.2)
    | none => Step.killed []
  else Step.next s []

/-- The body of the `switch (c)` in `main`, for the character `c` that
`getopt_long` returned and the `optarg` it set, entered with the locals `s`
after the events `tr`: the locals afterwards (or the status `main` returns)
and the events of this flag.  The option string `"+p:e:l:d:r:m:v:tb:x:h"`
names neither `s` nor `q` nor `w`, so `getopt_long` does not return them; the
switch has arms for them all the same, and the model takes any character.
There is no arm for `h`: it prints the usage text through `default`. -/
def dispatch (env : Env) (twifd : Int) (c : Char) (optarg : String) (s : State)
    (tr : List Event) : Step :=
  if c = 'p' then
    let gpio := env.atoi optarg
    let r := fpgadio_read env twifd gpio tr
    Step.next s (r.2 ++ [Event.stdout ("gpio" ++ toString gpio ++ "=" ++ toString r.1 ++ "\n")])
  else if c = 'e' then Step.next s (fpgadio_set twifd (env.atoi optarg) 1)
  else if c = 'l' then Step.next s (fpgadio_set twifd (env.atoi optarg) 0)
  else if c = 'd' then Step.next s (fpgadio_ddr twifd (env.atoi optarg) 1)
  else if c = 'r' then Step.next s (fpgadio_ddr twifd (env.atoi optarg) 0)
  else if c = 'm' then
    Step.next ⟨env.strtoull optarg % 2 ^ 16, 1, s.baud, s.bits⟩ []
  else if c = 'v' then
    if s.opt_addr ≠ 0 then
      let val : Nat := env.strtoull optarg % 2 ^ 16
      Step.next s [Event.poke twifd s.addr val]
    else Step.next s [Event.stderr noAddressMsg]
  else if c = 't' then
    if s.opt_addr ≠ 0 then
      let v := env.peek tr twifd s.addr
      Step.next s [Event.peek twifd s.addr,
        Event.stdout ("addr" ++ toString s.addr ++ "=0x" ++ hexUpper v ++ "\n")]
    else Step.next s [Event.stderr noAddressMsg]
  else if c = 's' then
    let i := env.peek tr twifd 31
    Step.next s [Event.peek twifd 31,
      Event.stdout ("pushsw=" ++ (if i ≠ 0 then "0" else "1") ++ "\n")]
  else if c = 'b' then Step.next ⟨s.addr, s.opt_addr, env.atoi optarg, s.bits⟩ []
  else if c = 'x' then Step.next ⟨s.addr, s.opt_addr, s.baud, env.atoi optarg⟩ []
  else if c = 'q' then commitArm env twifd 32 optarg s
  else if c = 'w' then commitArm env twifd 38 optarg s
  else Step.next s (usage env.argv0)

/-- The `while` loop of `main` over the successive results of `getopt_long`
(each a flag character with its `optarg`), entered with the locals `s` after
the events `tr`.  The trace of the result holds all events so far. -/
def flagLoop (env : Env) (twifd : Int) : List (Char × String) → State → List Event → Step
  | [], s, tr => Step.next s tr
  | f :: rest, s, tr =>
    match dispatch env twifd f.1 f.2 s tr with
    | Step.next s1 out => flagLoop env twifd rest s1 (tr ++ out)
    | Step.ret status out => Step.ret status (tr ++ out)
    | Step.killed out => Step.killed (tr ++ out)

/-- The function `main`: exit status (`none` when the process is killed by
`SIGFPE` and has none) and events, for the results `opts` of the successive
`getopt_long` calls. -/
def main (env : Env) (opts : List (Char × String)) : Option Int × List Event :=
  let twifd := env.fpga_init
  if twifd = -1 then (some 1, [Event.perror "Can't open FPGA I2C bus"])
  else
    match flagLoop env twifd opts State.init [] with
    | Step.next _ tr => (some 0, tr ++ [Event.close twifd])
    | Step.ret status tr => (some status, tr)
    | Step.killed tr => (none, tr)

/-! ## A transport and C library for worked examples -/

/-- The number a string of decimal digits stands for. -/
def parseDecimal (s : String) : Nat :=
  s.toList.foldl (fun n ch => 10 * n + (ch.toNat - 48)) 0

/-- The integer a string of decimal digits, after an optional minus sign,
stands for. -/
def parseSigned (s : String) : Int :=
  match s.toList with
  | '-' :: cs => -((String.mk cs |> parseDecimal : Nat) : Int)
  | _ => (parseDecimal s : Int)

/-- An environment for worked examples: `fpga_init` returns 3, every
register reads 0, and arguments are strings of decimal digits, for `atoi`
after an optional minus sign. -/
def exampleEnv : Env :=
  ⟨3, fun _ _ _ => 0, parseSigned, parseDecimal, "tshwctl"⟩

/-! ## Rounding to nearest, ties to even -/

/-- With enough fuel, `bitLengthAux` is the number of binary digits. -/
theorem bitLengthAux_bounds : ∀ (fuel n : Nat), n ≤ fuel → 0 < n →
    n < 2 ^ bitLengthAux fuel n ∧ 2 ^ bitLengthAux fuel n ≤ 2 * n := by
  intro fuel
  induction fuel with
  | zero => intro n h1 h2; omega
  | succ k ih =>
    intro n hn hpos
    have hne : n ≠ 0 := by omega
    simp only [bitLengthAux, hne, if_false]
    by_cases h1 : n = 1
    · subst h1
      cases k with
      | zero => simp [bitLengthAux]
      | succ j => simp [bitLengthAux]
    · have h2 : 0 < n / 2 := by omega
      have h3 : n / 2 ≤ k := by omega
      obtain ⟨ha, hb⟩ := ih (n / 2) h3 h2
      rw [pow_succ]
      constructor <;> omega

/-- A positive `n` lies in `[2 ^ (bitLength n - 1), 2 ^ bitLength n)`. -/
theorem bitLength_bounds (n : Nat) (h : 0 < n) :
    n < 2 ^ bitLength n ∧ 2 ^ bitLength n ≤ 2 * n :=
  bitLengthAux_bounds n n le_rfl h

/-- The nearest-even quotient is within half a unit of `n / d`. -/
theorem divRoundEven_bounds (n d : Nat) (hd : 0 < d) :
    2 * (d * divRoundEven n d) ≤ 2 * n + d ∧ 2 * n ≤ 2 * (d * divRoundEven n d) + d := by
  have h1 := Nat.div_add_mod n d
  have h2 := Nat.mod_lt n hd
  unfold divRoundEven
  simp only
  split_ifs <;> (try simp only [Nat.mul_add, Nat.mul_one]) <;> omega

/-- An integer power of two as a quotient of natural powers. -/
theorem two_zpow_split (e : Int) :
    (2 : ℚ) ^ e = (2 : ℚ) ^ e.toNat / (2 : ℚ) ^ (-e).toNat := by
  rcases le_total 0 e with h | h
  · have h1 : (-e).toNat = 0 := by omega
    have h2 : (e.toNat : Int) = e := Int.toNat_of_nonneg h
    rw [h1, pow_zero, div_one, ← zpow_natCast, h2]
  · have h1 : e.toNat = 0 := by omega
    have h2 : ((-e).toNat : Int) = -e := Int.toNat_of_nonneg (by omega)
    rw [h1, pow_zero, one_div, ← zpow_natCast, h2, zpow_neg, inv_inv]
/-- Scaling numerator and denominator by the two halves of `2 ^ e`. -/
theorem scaled_ratio (n d : Nat) (e : Int) :
    ((n * 2 ^ (-e).toNat : Nat) : ℚ) / ((d * 2 ^ e.toNat : Nat) : ℚ) = (n : ℚ) / d / (2 : ℚ) ^ e := by
  rw [two_zpow_split e]
  push_cast
  have h1 : (2 : ℚ) ^ e.toNat ≠ 0 := by positivity
  have h2 : (2 : ℚ) ^ (-e).toNat ≠ 0 := by positivity
  by_cases hd : (d : ℚ) = 0
  · simp [hd]
  · field_simp

/-- The nearest-even quotient at scale `2 ^ e` is within half a unit. -/
theorem divRoundEven_scaled (n d : Nat) (hd : 0 < d) (e : Int) :
    |((divRoundEven (n * 2 ^ (-e).toNat) (d * 2 ^ e.toNat) : Nat) : ℚ) * (2 : ℚ) ^ e - (n : ℚ) / d|
      ≤ (2 : ℚ) ^ e / 2 := by
  have hD : 0 < d * 2 ^ e.toNat := by positivity
  obtain ⟨h1, h2⟩ := divRoundEven_bounds (n * 2 ^ (-e).toNat) (d * 2 ^ e.toNat) hD
  have hs := scaled_ratio n d e
  generalize divRoundEven (n * 2 ^ (-e).toNat) (d * 2 ^ e.toNat) = m at h1 h2
  generalize n * 2 ^ (-e).toNat = N at h1 h2 hs
  generalize d * 2 ^ e.toNat = D at h1 h2 hs hD
  have hDq : (0 : ℚ) < D := by exact_mod_cast hD
  have hpos : (0 : ℚ) < (2 : ℚ) ^ e := by positivity
  have h1q : (2 : ℚ) * (D * m) ≤ 2 * N + D := by exact_mod_cast h1
  have h2q : (2 : ℚ) * N ≤ 2 * (D * m) + D := by exact_mod_cast h2
  have hnd : (n : ℚ) / d = (N : ℚ) / D * (2 : ℚ) ^ e := by
    rw [hs]; field_simp; ring
  rw [hnd, ← sub_mul, abs_mul, abs_of_pos hpos]
  have : |(m : ℚ) - (N : ℚ) / D| ≤ 1 / 2 := by
    have hm1 : (N : ℚ) / D ≤ m + 1 / 2 := by
      rw [div_le_iff₀ hDq]; nlinarith
    have hm2 : (m : ℚ) - 1 / 2 ≤ (N : ℚ) / D := by
      rw [le_div_iff₀ hDq]; nlinarith
    rw [abs_le]
    constructor <;> linarith
  calc |(m : ℚ) - (N : ℚ) / D| * (2 : ℚ) ^ e ≤ 1 / 2 * (2 : ℚ) ^ e :=
        mul_le_mul_of_nonneg_right this hpos.le
    _ = (2 : ℚ) ^ e / 2 := by ring

/-- The comparison that fixes the leading bit, read in the rationals. -/
theorem leading_test (n d : Nat) (hd : 0 < d) (k : Int) :
    d * 2 ^ k.toNat ≤ n * 2 ^ (-k).toNat ↔ (2 : ℚ) ^ k ≤ (n : ℚ) / d := by
  have hdq : (0 : ℚ) < d := by exact_mod_cast hd
  have h2 : (0 : ℚ) < (2 : ℚ) ^ (-k).toNat := by positivity
  rw [two_zpow_split k, div_le_div_iff₀ h2 hdq]
  constructor
  · intro h
    have : ((d * 2 ^ k.toNat : Nat) : ℚ) ≤ ((n * 2 ^ (-k).toNat : Nat) : ℚ) := by exact_mod_cast h
    push_cast at this
    linarith
  · intro h
    have : ((d * 2 ^ k.toNat : Nat) : ℚ) ≤ ((n * 2 ^ (-k).toNat : Nat) : ℚ) := by
      push_cast; linarith
    exact_mod_cast this

/-- Bounds on `n / d` from the lengths of `n` and `d`. -/
theorem ratio_between (n d : Nat) (hn : 0 < n) (hd : 0 < d) :
    (2 : ℚ) ^ ((bitLength n : Int) - (bitLength d : Int) - 1) < (n : ℚ) / d ∧
    (n : ℚ) / d < (2 : ℚ) ^ ((bitLength n : Int) - (bitLength d : Int) + 1) := by
  obtain ⟨hn1, hn2⟩ := bitLength_bounds n hn
  obtain ⟨hd1, hd2⟩ := bitLength_bounds d hd
  have hdq : (0 : ℚ) < d := by exact_mod_cast hd
  have hn1q : (n : ℚ) < (2 : ℚ) ^ bitLength n := by exact_mod_cast hn1
  have hn2q : (2 : ℚ) ^ bitLength n ≤ 2 * n := by exact_mod_cast hn2
  have hd1q : (d : ℚ) < (2 : ℚ) ^ bitLength d := by exact_mod_cast hd1
  have hd2q : (2 : ℚ) ^ bitLength d ≤ 2 * d := by exact_mod_cast hd2
  have e1 : (2 : ℚ) ^ ((bitLength n : Int) - (bitLength d : Int) - 1)
      = (2 : ℚ) ^ bitLength n / (2 : ℚ) ^ bitLength d / 2 := by
    rw [zpow_sub₀ (by norm_num), zpow_sub₀ (by norm_num), zpow_natCast, zpow_natCast, zpow_one]
  have e2 : (2 : ℚ) ^ ((bitLength n : Int) - (bitLength d : Int) + 1)
      = (2 : ℚ) ^ bitLength n / (2 : ℚ) ^ bitLength d * 2 := by
    rw [zpow_add₀ (by norm_num), zpow_sub₀ (by norm_num), zpow_natCast, zpow_natCast, zpow_one]
  have hA : (0 : ℚ) < (2 : ℚ) ^ bitLength n := by positivity
  have hB : (0 : ℚ) < (2 : ℚ) ^ bitLength d := by positivity
  rw [e1, e2]
  generalize (2 : ℚ) ^ bitLength n = A at *
  generalize (2 : ℚ) ^ bitLength d = B at *
  constructor
  · rw [div_div, div_lt_div_iff₀ (by positivity) hdq]
    nlinarith
  · rw [div_mul_eq_mul_div, div_lt_div_iff₀ hdq hB]
    nlinarith
/-- What rounding a positive fraction yields: a non-negative significand,
a value within half a unit in the last place, and the position of the leading
bit. -/
theorem roundRatio_spec (p n d : Nat) (hn : 0 < n) (hd : 0 < d) :
    0 ≤ (roundRatio p n d).m ∧
    |(roundRatio p n d).toRat - (n : ℚ) / d| ≤ (2 : ℚ) ^ (roundRatio p n d).e / 2 ∧
    (2 : ℚ) ^ ((roundRatio p n d).e + ((p : Int) - 1)) ≤ (n : ℚ) / d ∧
    (n : ℚ) / d < (2 : ℚ) ^ ((roundRatio p n d).e + (p : Int)) := by
  obtain ⟨hlo, hhi⟩ := ratio_between n d hn hd
  have htest := leading_test n d hd ((bitLength n : Int) - (bitLength d : Int))
  unfold roundRatio
  rw [if_neg (by omega)]
  simp only
  generalize (bitLength n : Int) - (bitLength d : Int) = k at *
  refine ⟨by positivity, ?_, ?_, ?_⟩
  · simp only [Flt.toRat]
    push_cast
    exact_mod_cast divRoundEven_scaled n d hd _
  · split_ifs with h
    · rw [show k - ((p : Int) - 1) + ((p : Int) - 1) = k by ring]
      exact htest.mp h
    · rw [show k - 1 - ((p : Int) - 1) + ((p : Int) - 1) = k - 1 by ring]
      exact hlo.le
  · split_ifs with h
    · rw [show k - ((p : Int) - 1) + (p : Int) = k + 1 by ring]
      exact hhi
    · rw [show k - 1 - ((p : Int) - 1) + (p : Int) = k by ring]
      exact lt_of_not_le (fun hc => h (htest.mpr hc))

/-- Rounding a non-negative numerator needs no sign handling. -/
theorem roundSigned_of_nonneg (p : Nat) (n : Int) (d : Nat) (hn : 0 ≤ n) :
    roundSigned p n d = roundRatio p n.toNat d := by
  unfold roundSigned
  rw [if_neg (by omega)]
  congr 1
  omega

/-- A value is the fraction of its numerator and denominator. -/
theorem Flt.num_div_den (x : Flt) : (x.num : ℚ) / (x.den : ℚ) = x.toRat := by
  unfold Flt.num Flt.den Flt.toRat
  rw [two_zpow_split x.e]
  push_cast
  ring
/-- Rounding a positive signed fraction. -/
theorem roundSigned_spec (p : Nat) (n : Int) (d : Nat) (hn : 0 < n) (hd : 0 < d) :
    0 ≤ (roundSigned p n d).m ∧
    |(roundSigned p n d).toRat - (n : ℚ) / d| ≤ (2 : ℚ) ^ (roundSigned p n d).e / 2 ∧
    (2 : ℚ) ^ ((roundSigned p n d).e + ((p : Int) - 1)) ≤ (n : ℚ) / d ∧
    (n : ℚ) / d < (2 : ℚ) ^ ((roundSigned p n d).e + (p : Int)) := by
  rw [roundSigned_of_nonneg p n d hn.le]
  have h := roundRatio_spec p n.toNat d (by omega) hd
  have hc : ((n.toNat : Nat) : ℚ) = (n : ℚ) := by
    have : ((n.toNat : Nat) : Int) = n := Int.toNat_of_nonneg hn.le
    exact_mod_cast this
  rw [hc] at h
  exact h

/-- Two integers within half a unit of each other, at any scale, agree. -/
theorem exact_of_near (m z : Int) (u : ℚ) (hu : 0 < u)
    (h : |(m : ℚ) * u - (z : ℚ) * u| ≤ u / 2) : m = z := by
  rw [← sub_mul, abs_mul, abs_of_pos hu] at h
  have h1 : |((m - z : Int) : ℚ)| < 1 := by
    push_cast
    by_contra hc
    push_neg at hc
    nlinarith
  have h2 : |m - z| < 1 := by exact_mod_cast h1
  have h3 := abs_lt.mp h2
  omega

/-- A bound on a power of two bounds its exponent. -/
theorem exp_lt_of_pow_le (a b : Int) (x : ℚ) (h1 : (2 : ℚ) ^ a ≤ x) (h2 : x < (2 : ℚ) ^ b) :
    a < b := by
  have := lt_of_le_of_lt h1 h2
  exact (zpow_lt_zpow_iff_right₀ (by norm_num : (1 : ℚ) < 2)).mp this

/-- A rounded value that is an exact multiple of its last place is kept. -/
theorem roundSigned_exact (p : Nat) (n : Int) (d : Nat) (hn : 0 < n) (hd : 0 < d) (z : Int)
    (hz : (n : ℚ) / d = (z : ℚ) * (2 : ℚ) ^ (roundSigned p n d).e) :
    (roundSigned p n d).toRat = (n : ℚ) / d := by
  obtain ⟨_, hA, _, _⟩ := roundSigned_spec p n d hn hd
  rw [hz] at hA ⊢
  have hu : (0 : ℚ) < (2 : ℚ) ^ (roundSigned p n d).e := by positivity
  have := exact_of_near (roundSigned p n d).m z _ hu hA
  simp only [Flt.toRat, this]

/-- An `int` converted to `float` is again an integer, within a relative
error of `2 ^ (-24)`; below `2 ^ 24` it is unchanged. -/
theorem intToFloat_spec (q : Int) (hq : 0 < q) :
    0 ≤ (intToFloat q).m ∧
    ∃ f : Int, (intToFloat q).toRat = (f : ℚ) ∧ |(f : ℚ) - (q : ℚ)| ≤ (q : ℚ) / 2 ^ 24 := by
  unfold intToFloat
  obtain ⟨hm, hA, hB, hC⟩ := roundSigned_spec 24 q 1 hq one_pos
  refine ⟨hm, ?_⟩
  simp only [Nat.cast_one, div_one] at hA hB hC
  rcases le_or_lt 0 (roundSigned 24 q 1).e with he | he
  · refine ⟨(roundSigned 24 q 1).m * 2 ^ (roundSigned 24 q 1).e.toNat, ?_, ?_⟩
    · simp only [Flt.toRat]
      push_cast
      rw [← zpow_natCast, Int.toNat_of_nonneg he]
    · have : (((roundSigned 24 q 1).m * 2 ^ (roundSigned 24 q 1).e.toNat : Int) : ℚ)
          = (roundSigned 24 q 1).toRat := by
        simp only [Flt.toRat]
        push_cast
        rw [← zpow_natCast, Int.toNat_of_nonneg he]
      rw [this]
      refine hA.trans ?_
      have : (2 : ℚ) ^ ((roundSigned 24 q 1).e + (((24 : Nat) : Int) - 1))
          = (2 : ℚ) ^ (roundSigned 24 q 1).e * 2 ^ 23 := by
        rw [zpow_add₀ (by norm_num)]; norm_num
      rw [this] at hB
      have h2 : (0 : ℚ) < (2 : ℚ) ^ (roundSigned 24 q 1).e := by positivity
      rw [div_le_div_iff₀ (by norm_num) (by norm_num)]
      nlinarith
  · have hex : (roundSigned 24 q 1).toRat = (q : ℚ) / ((1 : Nat) : ℚ) := by
      apply roundSigned_exact 24 q 1 hq one_pos (q * 2 ^ (-(roundSigned 24 q 1).e).toNat)
      push_cast
      rw [← zpow_natCast, Int.toNat_of_nonneg (by omega), mul_assoc, ← zpow_add₀ (by norm_num)]
      simp
    refine ⟨q, by simpa using hex, ?_⟩
    simp only [sub_self, abs_zero]
    have : (0 : ℚ) < q := by exact_mod_cast hq
    positivity
/-- The constant `fpga_clk` evaluated. -/
theorem fpga_clk_eq : fpga_clk = ⟨10923540, -18⟩ := by decide

/-- A value that stands for a positive number has a positive numerator. -/
theorem Flt.num_pos_of_toRat_pos (x : Flt) (h : 0 < x.toRat) : 0 < x.num := by
  have hd : (0 : ℚ) < (x.den : ℚ) := by
    unfold Flt.den; positivity
  rw [← Flt.num_div_den, div_pos_iff_of_pos_right hd] at h
  exact_mod_cast h

/-- The product `clk * c/2` in `double` is exact for an integer `clk` of at
most 33 bits and a small `c`. -/
theorem mul_half_exact (clk : Flt) (f : Int) (c : Nat) (hf : clk.toRat = (f : ℚ))
    (hf0 : 0 < f) (hf1 : f ≤ 2 ^ 32) (hc0 : 0 < c) (hc : c ≤ 19) :
    (Flt.mul 53 clk ⟨c, -1⟩).toRat = (c : ℚ) * f / 2 := by
  have hfq : (0 : ℚ) < f := by exact_mod_cast hf0
  have hfq1 : (f : ℚ) ≤ 2 ^ 32 := by exact_mod_cast hf1
  have hcq : (0 : ℚ) < c := by exact_mod_cast hc0
  have hcq1 : (c : ℚ) ≤ 19 := by exact_mod_cast hc
  have hnum : 0 < clk.num := Flt.num_pos_of_toRat_pos clk (by rw [hf]; exact hfq)
  have hden : 0 < clk.den := by unfold Flt.den; positivity
  have e1 : Flt.num ⟨c, -1⟩ = (c : Int) := by simp [Flt.num]
  have e2 : Flt.den ⟨c, -1⟩ = 2 := by simp [Flt.den]
  unfold Flt.mul
  rw [e1, e2]
  have hn : 0 < clk.num * (c : Int) := by positivity
  have hd : 0 < clk.den * 2 := by positivity
  have hr : ((clk.num * (c : Int) : Int) : ℚ) / ((clk.den * 2 : Nat) : ℚ) = (c : ℚ) * f / 2 := by
    push_cast
    rw [← hf, ← Flt.num_div_den]
    have : (clk.den : ℚ) ≠ 0 := by exact_mod_cast hden.ne'
    field_simp
    ring
  obtain ⟨_, _, hB, _⟩ := roundSigned_spec 53 (clk.num * c) (clk.den * 2) hn hd
  rw [hr] at hB
  have hlt : (c : ℚ) * f / 2 < (2 : ℚ) ^ (36 : Int) := by
    norm_num
    nlinarith
  have he := exp_lt_of_pow_le _ _ _ hB hlt
  push_cast at he
  rw [roundSigned_exact 53 (clk.num * c) (clk.den * 2) hn hd
    ((c : Int) * f * 2 ^ (-(roundSigned 53 (clk.num * c) (clk.den * 2)).e - 1).toNat), hr]
  rw [hr]
  push_cast
  rw [← zpow_natCast, Int.toNat_of_nonneg (by omega), mul_assoc, ← zpow_add₀ (by norm_num)]
  rw [show -(roundSigned 53 (clk.num * c) (clk.den * 2)).e - 1
    + (roundSigned 53 (clk.num * c) (clk.den * 2)).e = -1 by ring]
  norm_num
  ring
/-- The function `lround` on a positive value, characterised by the two
integers the value plus one half lies strictly between. -/
theorem lround_eq_of_between (b : Flt) (K : Int) (hm : 0 ≤ b.m)
    (h1 : (K : ℚ) < b.toRat + 1 / 2) (h2 : b.toRat + 1 / 2 < (K : ℚ) + 1) (hK : 0 ≤ K) :
    lround b = K := by
  have hden : 0 < b.den := by unfold Flt.den; positivity
  have hdq : (0 : ℚ) < (b.den : ℚ) := by exact_mod_cast hden
  have hnum0 : 0 ≤ b.num := by unfold Flt.num; positivity
  rw [← Flt.num_div_den] at h1 h2
  have hR : (((2 * b.num.natAbs + b.den) / (2 * b.den) : Nat) : Int) = K := by
    rw [Int.natCast_div]
    push_cast
    rw [abs_of_nonneg hnum0]
    have hpos : (0 : Int) < 2 * (b.den : Int) := by positivity
    have a1 : K * (2 * (b.den : Int)) < 2 * b.num + b.den := by
      have : (K : ℚ) * (2 * (b.den : ℚ)) < 2 * b.num + b.den := by
        have := mul_lt_mul_of_pos_right h1 (by positivity : (0 : ℚ) < 2 * (b.den : ℚ))
        calc (K : ℚ) * (2 * (b.den : ℚ)) < ((b.num : ℚ) / b.den + 1 / 2) * (2 * (b.den : ℚ)) := this
          _ = 2 * b.num + b.den := by field_simp; ring
      exact_mod_cast this
    have a2 : 2 * b.num + b.den < (K + 1) * (2 * (b.den : Int)) := by
      have : 2 * (b.num : ℚ) + b.den < ((K : ℚ) + 1) * (2 * (b.den : ℚ)) := by
        have := mul_lt_mul_of_pos_right h2 (by positivity : (0 : ℚ) < 2 * (b.den : ℚ))
        calc 2 * (b.num : ℚ) + b.den = ((b.num : ℚ) / b.den + 1 / 2) * (2 * (b.den : ℚ)) := by
              field_simp; ring
          _ < ((K : ℚ) + 1) * (2 * (b.den : ℚ)) := this
      exact_mod_cast this
    apply le_antisymm
    · have := (Int.ediv_lt_iff_lt_mul hpos).mpr a2
      omega
    · exact (Int.le_ediv_iff_mul_le hpos).mpr a1.le
  unfold lround
  rw [hR]
  rcases hm.lt_or_eq with hpos | hzero
  · rw [Int.sign_eq_one_of_pos hpos, one_mul]
  · have hn0 : b.num = 0 := by unfold Flt.num; rw [← hzero]; simp
    rw [hn0] at h1 h2
    simp only [Int.cast_zero, zero_div, zero_add] at h1 h2
    have k1 : K < 1 := by
      have : (K : ℚ) < 1 := by linarith
      exact_mod_cast this
    have : K = 0 := by omega
    rw [this, mul_zero]
/-- One count of `autotx_bitstoclks` as an integer quotient: for an integer
`clk` and the factor `c/2`, `lround((clk * c/2) / fpga_clk)` is
`clk * c * 2^16 / 5461770` rounded half up.  The rounding of the `double`
division never moves the quotient across a half-integer. -/
theorem count_eq (clk : Flt) (f : Int) (c : Nat) (hf : clk.toRat = (f : ℚ))
    (hf0 : 0 < f) (hf1 : f ≤ 2 ^ 32) (hc0 : 0 < c) (hc : c ≤ 19) :
    lround (Flt.div 53 (Flt.mul 53 clk ⟨c, -1⟩) fpga_clk)
      = ((c : Int) * f * 65536 + 2730885) / 5461770 := by
  have ha := mul_half_exact clk f c hf hf0 hf1 hc0 hc
  have hfq : (0 : ℚ) < f := by exact_mod_cast hf0
  have hfq1 : (f : ℚ) ≤ 2 ^ 32 := by exact_mod_cast hf1
  have hcq : (0 : ℚ) < c := by exact_mod_cast hc0
  have hcq1 : (c : ℚ) ≤ 19 := by exact_mod_cast hc
  generalize Flt.mul 53 clk ⟨c, -1⟩ = a at ha
  have hnum : 0 < a.num := Flt.num_pos_of_toRat_pos a (by rw [ha]; positivity)
  have hden : 0 < a.den := by unfold Flt.den; positivity
  have e1 : Flt.den ⟨10923540, -18⟩ = 262144 := by decide
  have e2 : (Flt.num ⟨10923540, -18⟩).sign = 1 := by decide
  have e3 : (Flt.num ⟨10923540, -18⟩).natAbs = 10923540 := by decide
  unfold Flt.div
  rw [fpga_clk_eq, e1, e2, e3, mul_one]
  have hn : 0 < a.num * ((262144 : Nat) : Int) := by positivity
  have hd : 0 < a.den * 10923540 := by positivity
  have hr : ((a.num * ((262144 : Nat) : Int) : Int) : ℚ) / ((a.den * 10923540 : Nat) : ℚ)
      = (c : ℚ) * f * 65536 / 5461770 := by
    push_cast
    have : (a.den : ℚ) ≠ 0 := by exact_mod_cast hden.ne'
    have h2 : (a.num : ℚ) = (c : ℚ) * f / 2 * a.den := by
      rw [← ha, ← Flt.num_div_den]; field_simp
    rw [h2]
    field_simp
    ring
  obtain ⟨hm, hA, hB, _⟩ := roundSigned_spec 53 _ _ hn hd
  rw [hr] at hA hB
  generalize roundSigned 53 (a.num * ((262144 : Nat) : Int)) (a.den * 10923540) = b at hm hA hB ⊢
  have hlt : (c : ℚ) * f * 65536 / 5461770 < (2 : ℚ) ^ (30 : Int) := by
    norm_num
    rw [div_lt_iff₀ (by norm_num)]
    nlinarith
  have he := exp_lt_of_pow_le _ _ _ hB hlt
  push_cast at he
  have hu : (2 : ℚ) ^ b.e ≤ (2 : ℚ) ^ (-23 : Int) :=
    zpow_le_zpow_right₀ (by norm_num) (by omega)
  have hu2 : (2 : ℚ) ^ (-23 : Int) = 1 / 8388608 := by norm_num [zpow_neg]
  rw [hu2] at hu
  have hup : (0 : ℚ) < (2 : ℚ) ^ b.e := by positivity
  obtain ⟨hA1, hA2⟩ := abs_le.mp hA
  -- the exact quotient plus one half sits at least 1/5461770 inside (K, K + 1)
  have hg : (0 : Int) ≤ (c : Int) * f := by positivity
  have hx : (c : ℚ) * f * 65536 / 5461770 + 1 / 2
      = ((((c : Int) * f * 65536 + 2730885 : Int)) : ℚ) / 5461770 := by
    push_cast; ring
  generalize hT : (c : Int) * f * 65536 + 2730885 = T at hx ⊢
  have hgT : ∃ g : Int, 0 ≤ g ∧ T = g * 65536 + 2730885 := ⟨(c : Int) * f, hg, hT.symm⟩
  obtain ⟨g, hg0, hTg⟩ := hgT
  have k1 : 5461770 * (T / 5461770) + 1 ≤ T := by omega
  have k2 : T + 1 ≤ 5461770 * (T / 5461770 + 1) := by omega
  have k0 : 0 ≤ T / 5461770 := by omega
  generalize T / 5461770 = K at k1 k2 k0 ⊢
  have k1q : (5461770 : ℚ) * K + 1 ≤ T := by exact_mod_cast k1
  have k2q : (T : ℚ) + 1 ≤ 5461770 * (K + 1) := by exact_mod_cast k2
  have hTq : (T : ℚ) = 5461770 * ((c : ℚ) * f * 65536 / 5461770 + 1 / 2) := by
    rw [hx]; field_simp
  generalize (c : ℚ) * f * 65536 / 5461770 = x at hA1 hA2 hTq
  apply lround_eq_of_between b K hm _ _ k0
  · linarith
  · linarith
/-- For up to 21 bits the product `bits*100000000` fits an `int`, and the
division by a positive `baud` is defined and is the floor division. -/
theorem clk_int_eq (bits baud : Int) (hb : 0 < bits) (hb2 : bits ≤ 21) (hr : 0 < baud) :
    cIntDiv (wrapInt32 (bits * 100000000)) baud = some (bits * 100000000 / baud) := by
  have h1 : wrapInt32 (bits * 100000000) = bits * 100000000 := by
    unfold wrapInt32; omega
  have h2 : ¬ (baud = 0 ∨ (bits * 100000000 = -2 ^ 31 ∧ baud = -1)) := by omega
  unfold cIntDiv
  rw [h1, if_neg h2, Int.tdiv_eq_ediv (by positivity) hr.le]

/-- Both counts of `autotx_bitstoclks` in integer arithmetic: the function
returns, and with `f` the value of `clk` (an integer),
`cnt1 = (19 f 2^16 + 2730885) / 5461770` and
`cnt2 = (f 2^16 + 2730885) / 5461770`. -/
theorem autotx_formula (bits baud : Int) (hb : 0 < bits) (hb2 : bits ≤ 21) (hr : 0 < baud) :
    ∃ (f : Int) (cnt1 cnt2 : Nat), 0 ≤ f ∧ f ≤ 2 ^ 32 ∧
      (intToFloat (bits * 100000000 / baud)).toRat = (f : ℚ) ∧
      autotx_bitstoclks bits baud = some (cnt1, cnt2) ∧
      (cnt1 : Int) = (19 * f * 65536 + 2730885) / 5461770 ∧
      (cnt2 : Int) = (f * 65536 + 2730885) / 5461770 := by
  have hq := clk_int_eq bits baud hb hb2 hr
  have hq0 : 0 ≤ bits * 100000000 / baud := Int.ediv_nonneg (by positivity) hr.le
  have hq1 : bits * 100000000 / baud ≤ 2100000000 := by
    have : bits * 100000000 / baud ≤ bits * 100000000 :=
      Int.ediv_le_self _ (by positivity)
    omega
  unfold autotx_bitstoclks
  simp only [hq]
  generalize bits * 100000000 / baud = q at hq0 hq1
  rcases hq0.lt_or_eq with hpos | hzero
  · obtain ⟨hm, f, hf, herr⟩ := intToFloat_spec q hpos
    have hqq : (0 : ℚ) < q := by exact_mod_cast hpos
    have hqq1 : (q : ℚ) ≤ 2100000000 := by exact_mod_cast hq1
    obtain ⟨e1, e2⟩ := abs_le.mp herr
    have hfpos : 0 < f := by
      have : (0 : ℚ) < f := by
        have : (q : ℚ) / 2 ^ 24 < q := by
          rw [div_lt_iff₀ (by norm_num)]; nlinarith
        linarith
      exact_mod_cast this
    have hfle : f ≤ 2 ^ 32 := by
      have : (f : ℚ) ≤ 2 ^ 32 := by
        have : (q : ℚ) / 2 ^ 24 ≤ q := by
          rw [div_le_iff₀ (by norm_num)]; nlinarith
        norm_num at this ⊢
        linarith
      exact_mod_cast this
    have c1 := count_eq (intToFloat q) f 19 hf hfpos hfle (by norm_num) (by norm_num)
    have c2 := count_eq (intToFloat q) f 1 hf hfpos hfle (by norm_num) (by norm_num)
    simp only [Nat.cast_one, one_mul] at c2
    simp only [Nat.cast_ofNat] at c1
    refine ⟨f, _, _, hfpos.le, hfle, hf, rfl, ?_, ?_⟩
    · have : lit_9_5 = ⟨19, -1⟩ := rfl
      rw [this, c1]
      unfold toUInt32
      push_cast
      omega
    · have : lit_0_5 = ⟨1, -1⟩ := rfl
      rw [this, c2]
      unfold toUInt32
      push_cast
      omega
  · subst hzero
    refine ⟨0, 0, 0, le_rfl, by norm_num, ?_, ?_, ?_, ?_⟩
    · have : intToFloat 0 = ⟨0, 0⟩ := by decide
      rw [this]; simp [Flt.toRat]
    · decide
    · decide
    · decide

/-- The significand of a rounded positive fraction is the nearest-even
quotient at the scale of the result's exponent. -/
theorem roundRatio_m (p n d : Nat) (hn : n ≠ 0) :
    (roundRatio p n d).m = ((divRoundEven (n * 2 ^ (-(roundRatio p n d).e).toNat)
      (d * 2 ^ (roundRatio p n d).e.toNat) : Nat) : Int) := by
  simp only [roundRatio, if_neg hn]

/-- Between `2 ^ 26` and `2 ^ 27` the `float` nearest to an `int` is the
nearest multiple of 8, ties to even. -/
theorem intToFloat_binade26 (q : Int) (h1 : 2 ^ 26 ≤ q) (h2 : q < 2 ^ 27) :
    (intToFloat q).toRat = ((8 * (divRoundEven q.toNat 8 : Nat) : Int) : ℚ) := by
  have hq : 0 < q := by omega
  unfold intToFloat
  obtain ⟨_, _, hB, hC⟩ := roundSigned_spec 24 q 1 hq one_pos
  simp only [Nat.cast_one, div_one] at hB hC
  have h1q : (2 : ℚ) ^ (26 : Int) ≤ (q : ℚ) := by
    have : ((2 ^ 26 : Int) : ℚ) ≤ (q : ℚ) := by exact_mod_cast h1
    norm_num at this ⊢
    exact this
  have h2q : (q : ℚ) < (2 : ℚ) ^ (27 : Int) := by
    have : (q : ℚ) < ((2 ^ 27 : Int) : ℚ) := by exact_mod_cast h2
    norm_num at this ⊢
    exact this
  have a1 := exp_lt_of_pow_le _ _ _ hB h2q
  have a2 := exp_lt_of_pow_le _ _ _ h1q hC
  push_cast at a1 a2
  have he : (roundSigned 24 q 1).e = 3 := by omega
  have hm : (roundSigned 24 q 1).m = ((divRoundEven q.toNat 8 : Nat) : Int) := by
    rw [roundSigned_of_nonneg 24 q 1 hq.le] at he ⊢
    rw [roundRatio_m 24 q.toNat 1 (by omega), he]
    have t1 : (-(3 : Int)).toNat = 0 := rfl
    have t2 : (3 : Int).toNat = 3 := rfl
    rw [t1, t2]
    norm_num
  simp only [Flt.toRat, he, hm]
  push_cast
  norm_num
  ring

/-- An `int` that is an integer below `2 ^ 24` times a power of two is a
`float`: the conversion keeps it. -/
theorem intToFloat_exact (q : Int) (hq : 0 < q) (a : Nat) (o : Int) (ho : o < 2 ^ 24)
    (hqo : q = o * 2 ^ a) : (intToFloat q).toRat = (q : ℚ) := by
  unfold intToFloat
  obtain ⟨_, _, hB, _⟩ := roundSigned_spec 24 q 1 hq one_pos
  simp only [Nat.cast_one, div_one] at hB
  have hq2 : (q : ℚ) < (2 : ℚ) ^ ((24 : Int) + a) := by
    rw [zpow_add₀ (by norm_num), zpow_natCast]
    have h1 : (q : ℚ) = (o : ℚ) * 2 ^ a := by exact_mod_cast hqo
    have h2 : (o : ℚ) < 2 ^ 24 := by exact_mod_cast ho
    rw [h1]
    have : (0 : ℚ) < 2 ^ a := by positivity
    norm_num
    nlinarith
  have he := exp_lt_of_pow_le _ _ _ hB hq2
  push_cast at he
  have := roundSigned_exact 24 q 1 hq one_pos (o * 2 ^ ((a : Int) - (roundSigned 24 q 1).e).toNat) ?_
  · simpa using this
  · push_cast
    rw [← zpow_natCast (2 : ℚ) ((a : Int) - (roundSigned 24 q 1).e).toNat,
      Int.toNat_of_nonneg (by omega), mul_assoc, ← zpow_add₀ (by norm_num)]
    rw [show (a : Int) - (roundSigned 24 q 1).e + (roundSigned 24 q 1).e = a by ring, zpow_natCast]
    have h1 : (q : ℚ) = (o : ℚ) * 2 ^ a := by exact_mod_cast hqo
    rw [h1]; simp

/-- A divisor of `bits * 10 ^ 8`, for at most 21 bits, is an odd number
below `2 ^ 24` times a power of two. -/
theorem divisor_shape (b q : Nat) (hb : b ≤ 21) (hb0 : 0 < b) (hq : q ∣ b * 10 ^ 8) :
    ∃ (a : Nat) (o : Nat), o < 2 ^ 24 ∧ q = o * 2 ^ a := by
  have hq0 : q ≠ 0 := by
    rintro rfl
    have := Nat.eq_zero_of_zero_dvd hq
    omega
  obtain ⟨a, o, hodd, rfl⟩ := Nat.exists_eq_two_pow_mul_odd hq0
  refine ⟨a, o, ?_, by ring⟩
  have ho : o ∣ b * 10 ^ 8 := Dvd.dvd.trans (Dvd.intro_left _ rfl) hq
  have hcop : Nat.Coprime o (2 ^ 8) :=
    Nat.Coprime.pow_right 8 (Nat.coprime_two_right.mpr hodd)
  have h2 : b * 10 ^ 8 = (b * 5 ^ 8) * 2 ^ 8 := by norm_num; ring
  rw [h2] at ho
  have ho2 : o ∣ b * 5 ^ 8 := Nat.Coprime.dvd_of_dvd_mul_right hcop ho
  have := Nat.le_of_dvd (by positivity) ho2
  norm_num at this ⊢
  omega

/-- The `float` constant stands for `41.6699981689453125`. -/
theorem fpga_clk_toRat : fpga_clk.toRat = fpgaClkNs := by
  rw [fpga_clk_eq]
  norm_num [Flt.toRat, fpgaClkNs]

/-! ## Bytes of a counter -/

/-- An eight-bit mask at offset `k`, shifted back down, is a remainder. -/
theorem mask_shift (v k : Nat) : (v &&& ((2 ^ 8 - 1) <<< k)) >>> k = (v >>> k) % 2 ^ 8 := by
  apply Nat.eq_of_testBit_eq
  intro j
  simp only [Nat.testBit_shiftRight, Nat.testBit_and, Nat.testBit_shiftLeft,
    Nat.testBit_mod_two_pow, Nat.testBit_two_pow_sub_one]
  have h1 : k + j ≥ k := by omega
  have h2 : k + j - k = j := by omega
  simp only [h1, h2, decide_True, Bool.true_and]
  rw [Bool.and_comm]

/-- The three bytes of a counter in arithmetic form. -/
theorem counterBytes_eq (v : Nat) :
    counterBytes v = ((v / 65536) % 256, (v / 256) % 256, v % 256) := by
  have m16 : (0xff0000 : Nat) = (2 ^ 8 - 1) <<< 16 := by decide
  have m8 : (0xff00 : Nat) = (2 ^ 8 - 1) <<< 8 := by decide
  have m0 : (0xff : Nat) = 2 ^ 8 - 1 := by decide
  unfold counterBytes
  rw [m16, m8, m0, mask_shift, mask_shift, Nat.and_pow_two_sub_one_eq_mod,
    Nat.shiftRight_eq_div_pow, Nat.shiftRight_eq_div_pow]
  norm_num

/-- Three bytes put back together by shifts and ors. -/
theorem reassemble (b2 b1 b0 : Nat) (h1 : b1 < 256) (h0 : b0 < 256) :
    (b2 <<< 16) ||| (b1 <<< 8) ||| b0 = b2 * 65536 + b1 * 256 + b0 := by
  rw [Nat.shiftLeft_eq, Nat.shiftLeft_eq]
  have e1 : b2 * 2 ^ 16 ||| b1 * 2 ^ 8 = 2 ^ 16 * b2 + b1 * 2 ^ 8 := by
    rw [Nat.mul_add_lt_is_or (by omega) b2, Nat.mul_comm]
  have e2 : 2 ^ 16 * b2 + b1 * 2 ^ 8 = 2 ^ 8 * (2 ^ 8 * b2 + b1) := by ring
  rw [e1, e2, ← Nat.mul_add_lt_is_or (by omega)]
  ring

/-- The mask test of `fpgadio_read` is a test of bit 2. -/
theorem and_four_ne_zero (x : Nat) : (x &&& 0x4 ≠ 0) ↔ x.testBit 2 = true := by
  have h : x &&& 4 = if x.testBit 2 then 4 else 0 := by
    apply Nat.eq_of_testBit_eq
    intro i
    have e4 : (4 : Nat) = 2 ^ 2 := by norm_num
    rw [Nat.testBit_and]
    by_cases hi : 2 = i
    · subst hi
      cases hx : x.testBit 2 <;> simp
    · have t4 : Nat.testBit 4 i = false := by
        rw [e4, Nat.testBit_two_pow]; simp [hi]
      rw [t4, Bool.and_false]
      split_ifs
      · rw [t4]
      · simp
  rw [show (0x4 : Nat) = 4 by rfl, h]
  split_ifs with hx <;> simp [hx]

/-! ## The flag loop -/

/-- The loop over two lists of flags in a row. -/
theorem flagLoop_append (env : Env) (twifd : Int) (pre post : List (Char × String)) :
    ∀ (s : State) (tr : List Event),
    flagLoop env twifd (pre ++ post) s tr =
      match flagLoop env twifd pre s tr with
      | Step.next s1 tr1 => flagLoop env twifd post s1 tr1
      | Step.ret status tr1 => Step.ret status tr1
      | Step.killed tr1 => Step.killed tr1 := by
  induction pre with
  | nil => intro s tr; rfl
  | cons f rest ih =>
    intro s tr
    rw [List.cons_append]
    simp only [flagLoop]
    cases h : dispatch env twifd f.1 f.2 s tr with
    | next s1 out => exact ih s1 (tr ++ out)
    | ret status out => rfl
    | killed out => rfl

/-- A commit arm leaves the locals as they are. -/
theorem commitArm_state (env : Env) (twifd base : Int) (optarg : String) (s s1 : State)
    (out : List Event) (h : commitArm env twifd base optarg s = Step.next s1 out) : s1 = s := by
  rw [commitArm] at h
  split_ifs at h
  · cases hv : autotx_bitstoclks s.bits s.baud with
    | none => rw [hv] at h; exact Step.noConfusion h
    | some cnt => rw [hv] at h; injection h with h1 h2; exact h1.symm
  · injection h with h1 h2; exact h1.symm

/-- Only the `m` arm changes `opt_addr`. -/
theorem dispatch_opt_addr (env : Env) (twifd : Int) (c : Char) (optarg : String) (s s1 : State)
    (tr out : List Event) (hc : c ≠ 'm')
    (h : dispatch env twifd c optarg s tr = Step.next s1 out) : s1.opt_addr = s.opt_addr := by
  rw [dispatch] at h
  by_cases h1 : c = 'p'
  · rw [if_pos h1] at h; injection h with e1 e2; rw [← e1]
  rw [if_neg h1] at h; clear h1
  by_cases h1 : c = 'e'
  · rw [if_pos h1] at h; injection h with e1 e2; rw [← e1]
  rw [if_neg h1] at h; clear h1
  by_cases h1 : c = 'l'
  · rw [if_pos h1] at h; injection h with e1 e2; rw [← e1]
  rw [if_neg h1] at h; clear h1
  by_cases h1 : c = 'd'
  · rw [if_pos h1] at h; injection h with e1 e2; rw [← e1]
  rw [if_neg h1] at h; clear h1
  by_cases h1 : c = 'r'
  · rw [if_pos h1] at h; injection h with e1 e2; rw [← e1]
  rw [if_neg h1] at h; clear h1
  by_cases h1 : c = 'm'
  · exact absurd h1 hc
  rw [if_neg h1] at h; clear h1
  by_cases h1 : c = 'v'
  · rw [if_pos h1] at h
    by_cases h2 : s.opt_addr ≠ 0
    · rw [if_pos h2] at h; injection h with e1 e2; rw [← e1]
    · rw [if_neg h2] at h; injection h with e1 e2; rw [← e1]
  rw [if_neg h1] at h; clear h1
  by_cases h1 : c = 't'
  · rw [if_pos h1] at h
    by_cases h2 : s.opt_addr ≠ 0
    · rw [if_pos h2] at h; injection h with e1 e2; rw [← e1]
    · rw [if_neg h2] at h; injection h with e1 e2; rw [← e1]
  rw [if_neg h1] at h; clear h1
  by_cases h1 : c = 's'
  · rw [if_pos h1] at h; injection h with e1 e2; rw [← e1]
  rw [if_neg h1] at h; clear h1
  by_cases h1 : c = 'b'
  · rw [if_pos h1] at h; injection h with e1 e2; rw [← e1]
  rw [if_neg h1] at h; clear h1
  by_cases h1 : c = 'x'
  · rw [if_pos h1] at h; injection h with e1 e2; rw [← e1]
  rw [if_neg h1] at h; clear h1
  by_cases h1 : c = 'q'
  · rw [if_pos h1] at h
    rw [commitArm_state _ _ _ _ _ _ _ h]
  rw [if_neg h1] at h; clear h1
  by_cases h1 : c = 'w'
  · rw [if_pos h1] at h
    rw [commitArm_state _ _ _ _ _ _ _ h]
  rw [if_neg h1] at h; clear h1
  injection h with e1 e2; rw [← e1]

/-- Without an `m` flag, `opt_addr` stays zero through the loop. -/
theorem flagLoop_opt_addr (env : Env) (twifd : Int) (pre : List (Char × String))
    (hpre : ∀ f ∈ pre, f.1 ≠ 'm') :
    ∀ (s s1 : State) (tr tr1 : List Event), s.opt_addr = 0 →
      flagLoop env twifd pre s tr = Step.next s1 tr1 → s1.opt_addr = 0 := by
  induction pre with
  | nil =>
    intro s s1 tr tr1 h0 h
    simp only [flagLoop] at h
    injection h with h1 h2
    rw [← h1]; exact h0
  | cons f rest ih =>
    intro s s1 tr tr1 h0 h
    simp only [flagLoop] at h
    cases hd : dispatch env twifd f.1 f.2 s tr with
    | next s2 out =>
      rw [hd] at h
      have h2 := dispatch_opt_addr env twifd f.1 f.2 s s2 tr out
        (hpre f (List.mem_cons_self _ _)) hd
      exact ih (fun g hg => hpre g (List.mem_cons_of_mem _ hg)) s2 s1 _ tr1 (by rw [h2, h0]) h
    | ret status out =>
      rw [hd] at h
      exact Step.noConfusion h
    | killed out =>
      rw [hd] at h
      exact Step.noConfusion h

/-- A flag is handled the same way after two traces with the same register
accesses. -/
theorem dispatch_congr (env : Env) (twifd : Int) (c : Char) (optarg : String) (s : State)
    (tr tr' : List Event) (h : tr.filter Event.isAccess = tr'.filter Event.isAccess) :
    dispatch env twifd c optarg s tr = dispatch env twifd c optarg s tr' := by
  unfold dispatch fpgadio_read Env.peek
  rw [h]

/-- An extra event that is no register access, anywhere in the trace, stays
where it is and changes nothing else. -/
theorem flagLoop_insert (env : Env) (twifd : Int) (a : List Event) (x : Event)
    (hx : x.isAccess = false) (post : List (Char × String)) :
    ∀ (s : State) (b : List Event),
      ∃ b', (flagLoop env twifd post s (a ++ b)).trace = a ++ b' ∧
        flagLoop env twifd post s (a ++ x :: b) =
          (flagLoop env twifd post s (a ++ b)).withTrace (a ++ x :: b') := by
  induction post with
  | nil => intro s b; exact ⟨b, rfl, rfl⟩
  | cons f rest ih =>
    intro s b
    have hc : dispatch env twifd f.1 f.2 s (a ++ x :: b) = dispatch env twifd f.1 f.2 s (a ++ b) := by
      apply dispatch_congr
      simp [List.filter_append, List.filter_cons, hx]
    simp only [flagLoop, hc]
    cases hd : dispatch env twifd f.1 f.2 s (a ++ b) with
    | next s1 out =>
      simp only
      obtain ⟨b', h1, h2⟩ := ih s1 (b ++ out)
      refine ⟨b', ?_, ?_⟩
      · rw [List.append_assoc]; exact h1
      · rw [List.append_assoc, List.append_assoc, List.cons_append]; exact h2
    | ret status out =>
      refine ⟨b ++ out, ?_, ?_⟩
      · simp [Step.trace]
      · simp [Step.withTrace]
    | killed out =>
      refine ⟨b ++ out, ?_, ?_⟩
      · simp [Step.trace]
      · simp [Step.withTrace]

/-! ## The timing calculator: claims C1 to C4 -/

/-- Claim C1: for `frameBits = 10` and `baudRate = 115200`,
`autotx_bitstoclks` yields `cnt1 = 1979` and `cnt2 = 104`. -/
theorem autotx_bitstoclks_10_115200 : autotx_bitstoclks 10 115200 = some (1979, 104) := by
  decide

/-- Claim C2 as stated fails: for 12 frame bits at 50 baud the byte time is
exactly 24000000 ns; with the period 41.67 the formula gives
`round(5471562.275) = 5471562` for `cnt1`, and the code, whose period is the
`float` nearest to 41.67, returns 5471563. -/
theorem timing_formula_counterexample :
    autotx_bitstoclks 12 50 = some (5471563, 287977) ∧
    specCount 9.5 41.67 12 50 = 5471562 ∧
    ¬ ∃ cnt1 cnt2 : Nat, autotx_bitstoclks 12 50 = some (cnt1, cnt2) ∧
      (cnt1 : Int) = specCount 9.5 41.67 12 50 ∧ (cnt2 : Int) = specCount 0.5 41.67 12 50 := by
  have h1 : autotx_bitstoclks 12 50 = some (5471563, 287977) := by decide
  have h2 : specCount 9.5 41.67 12 50 = 5471562 := by
    unfold specCount roundHalfAway byteTimeNs
    norm_num
  refine ⟨h1, h2, ?_⟩
  rintro ⟨cnt1, cnt2, hv, e1, _⟩
  rw [h1] at hv
  simp only [Option.some.injEq, Prod.mk.injEq] at hv
  obtain ⟨rfl, rfl⟩ := hv
  rw [h2] at e1
  revert e1
  decide

/-- Claim C2, amended: for every positive `frameBits` up to 21 and every
positive `baudRate` that divides `frameBits × 10^8`, `autotx_bitstoclks`
returns `cnt1 = round(byteTimeNs × 9.5 / P)` and
`cnt2 = round(byteTimeNs × 0.5 / P)`, where
`byteTimeNs = (frameBits × 10^8) / baudRate`, `P = 41.6699981689453125` is the
value of the `float` constant `fpga_clk` and `round` rounds halfway cases away
from zero. -/
theorem timing_formula_exact_quotient (bits baud : Int) (hb : 0 < bits) (hb2 : bits ≤ 21)
    (hr : 0 < baud) (hdvd : baud ∣ bits * 10 ^ 8) :
    ∃ cnt1 cnt2 : Nat, autotx_bitstoclks bits baud = some (cnt1, cnt2) ∧
      (cnt1 : Int) = specCount 9.5 fpgaClkNs bits baud ∧
      (cnt2 : Int) = specCount 0.5 fpgaClkNs bits baud := by
  obtain ⟨f, cnt1, cnt2, hf0, hf1, hf, hv, c1, c2⟩ := autotx_formula bits baud hb hb2 hr
  refine ⟨cnt1, cnt2, hv, ?_⟩
  have hN : (100000000 : Int) = 10 ^ 8 := by norm_num
  rw [hN] at hf
  obtain ⟨q, hq⟩ := hdvd
  have hqpos : 0 < q := by
    by_contra hc
    have : baud * q ≤ 0 := mul_nonpos_of_nonneg_of_nonpos hr.le (not_lt.mp hc)
    have : 0 < bits * 10 ^ 8 := by positivity
    omega
  have hdiv : bits * 10 ^ 8 / baud = q := by
    rw [hq, Int.mul_ediv_cancel_left _ hr.ne']
  rw [hdiv] at hf
  -- the quotient is a float
  have hshape : ∃ (a : Nat) (o : Nat), o < 2 ^ 24 ∧ q.toNat = o * 2 ^ a := by
    apply divisor_shape bits.toNat q.toNat (by omega) (by omega)
    have h1 : (q.toNat : Int) = q := Int.toNat_of_nonneg hqpos.le
    have h2 : (bits.toNat : Int) = bits := Int.toNat_of_nonneg hb.le
    have : (q.toNat : Int) ∣ ((bits.toNat * 10 ^ 8 : Nat) : Int) := by
      have hq' : bits * 100000000 = baud * q := by rw [← hq]; norm_num
      push_cast
      rw [h1, h2, hq']
      exact Dvd.intro_left _ rfl
    exact Int.natCast_dvd_natCast.mp this
  obtain ⟨a, o, ho, hqo⟩ := hshape
  have hex := intToFloat_exact q hqpos a o (by exact_mod_cast ho) (by
    have h1 : (q.toNat : Int) = q := Int.toNat_of_nonneg hqpos.le
    rw [← h1, hqo]; push_cast; ring)
  have hfq : f = q := by
    have : (f : ℚ) = (q : ℚ) := by rw [← hf, hex]
    exact_mod_cast this
  subst hfq
  have hbt : byteTimeNs bits baud = (f : ℚ) := by
    unfold byteTimeNs
    have : ((bits * 10 ^ 8 : Int) : ℚ) = ((baud * f : Int) : ℚ) := by rw [hq]
    push_cast at this
    have e : (bits : ℚ) * 10 ^ 8 = (baud : ℚ) * f := by rw [← this]; norm_num
    rw [e]
    have : (baud : ℚ) ≠ 0 := by exact_mod_cast hr.ne'
    field_simp
  have hfq0 : (0 : ℚ) ≤ f := by exact_mod_cast hf0
  have r1 : roundHalfAway ((f : ℚ) * 9.5 / fpgaClkNs) = (19 * f * 65536 + 2730885) / 5461770 := by
    have hx : (f : ℚ) * 9.5 / fpgaClkNs + 1 / 2
        = (((19 * f * 65536 + 2730885 : Int)) : ℚ) / ((5461770 : Nat) : ℚ) := by
      unfold fpgaClkNs; push_cast; norm_num; ring
    have hnn : (0 : ℚ) ≤ (f : ℚ) * 9.5 / fpgaClkNs := by
      unfold fpgaClkNs; positivity
    unfold roundHalfAway
    rw [if_pos hnn, hx, Rat.floor_intCast_div_natCast]
    norm_num
  have r2 : roundHalfAway ((f : ℚ) * 0.5 / fpgaClkNs) = (f * 65536 + 2730885) / 5461770 := by
    have hx : (f : ℚ) * 0.5 / fpgaClkNs + 1 / 2
        = (((f * 65536 + 2730885 : Int)) : ℚ) / ((5461770 : Nat) : ℚ) := by
      unfold fpgaClkNs; push_cast; norm_num; ring
    have hnn : (0 : ℚ) ≤ (f : ℚ) * 0.5 / fpgaClkNs := by
      unfold fpgaClkNs; positivity
    unfold roundHalfAway
    rw [if_pos hnn, hx, Rat.floor_intCast_div_natCast]
    norm_num
  unfold specCount
  rw [hbt, r1, r2]
  exact ⟨c1, c2⟩

/-- Claim C2, amended, at 12 frame bits and 50 baud. -/
theorem timing_formula_exact_quotient_witness :
    ((0 : Int) < 12 ∧ (12 : Int) ≤ 21 ∧ (0 : Int) < 50 ∧ (50 : Int) ∣ 12 * 10 ^ 8) ∧
    ∃ cnt1 cnt2 : Nat, autotx_bitstoclks 12 50 = some (cnt1, cnt2) ∧
      (cnt1 : Int) = specCount 9.5 fpgaClkNs 12 50 ∧
      (cnt2 : Int) = specCount 0.5 fpgaClkNs 12 50 :=
  ⟨⟨by decide, by decide, by decide, by decide⟩,
    timing_formula_exact_quotient 12 50 (by decide) (by decide) (by decide) (by decide)⟩

/-- Why the amended claim C2 asks for an exact quotient: at 10 frame bits and
230400 baud the `int` division gives 4340 for 4340.27..., and the code
returns 989 where the formula, even with the period of the code, gives 990. -/
theorem timing_formula_truncated_quotient :
    autotx_bitstoclks 10 230400 = some (989, 52) ∧
    specCount 9.5 fpgaClkNs 10 230400 = 990 := by
  refine ⟨by decide, ?_⟩
  unfold specCount roundHalfAway byteTimeNs fpgaClkNs
  norm_num

/-- Why the amended claims C2, C3 and C4 stop at 21 frame bits: from 22 bits
on the product `bits*100000000` leaves the range of `int`.  At 22 bits and
1 baud `clk` is negative and the counts wrap around `2 ^ 32`; at 43 bits and
1 baud `clk` is 5032704 instead of 4300000000. -/
theorem timing_int_overflow :
    autotx_bitstoclks 22 1 = some (3817352941, 4269829698) ∧
    autotx_bitstoclks 43 1 = some (1147365, 60388) := by
  constructor <;> decide

/-- Claim C3 as stated fails on the specification's own example: for 10
frame bits at 115200 baud the counts are 1979 and 104, and
`1979 - 19 × 104 = 3`. -/
theorem count_ratio_counterexample :
    autotx_bitstoclks 10 115200 = some (1979, 104) ∧
    ¬ ∃ cnt1 cnt2 : Nat, autotx_bitstoclks 10 115200 = some (cnt1, cnt2) ∧
      |(cnt1 : Int) - 19 * (cnt2 : Int)| ≤ 1 := by
  have h : autotx_bitstoclks 10 115200 = some (1979, 104) := by decide
  refine ⟨h, ?_⟩
  rintro ⟨cnt1, cnt2, hv, hb⟩
  rw [h] at hv
  simp only [Option.some.injEq, Prod.mk.injEq] at hv
  obtain ⟨rfl, rfl⟩ := hv
  revert hb
  decide

/-- Claim C3, amended: for every positive `frameBits` up to 21 and every
positive `baudRate`, `autotx_bitstoclks` returns counts with
`|cnt1 - 19 × cnt2| ≤ 9`. -/
theorem count_ratio_bound (bits baud : Int) (hb : 0 < bits) (hb2 : bits ≤ 21) (hr : 0 < baud) :
    ∃ cnt1 cnt2 : Nat, autotx_bitstoclks bits baud = some (cnt1, cnt2) ∧
      |(cnt1 : Int) - 19 * (cnt2 : Int)| ≤ 9 := by
  obtain ⟨f, cnt1, cnt2, hf0, hf1, _, hv, h1, h2⟩ := autotx_formula bits baud hb hb2 hr
  refine ⟨cnt1, cnt2, hv, ?_⟩
  rw [h1, h2, abs_le]
  constructor <;> omega

/-- Claim C3, amended, at 1 frame bit and 44 baud. -/
theorem count_ratio_bound_witness :
    ((0 : Int) < 1 ∧ (1 : Int) ≤ 21 ∧ (0 : Int) < 44) ∧
    ∃ cnt1 cnt2 : Nat, autotx_bitstoclks 1 44 = some (cnt1, cnt2) ∧
      |(cnt1 : Int) - 19 * (cnt2 : Int)| ≤ 9 :=
  ⟨⟨by decide, by decide, by decide⟩, count_ratio_bound 1 44 (by decide) (by decide) (by decide)⟩

/-- The bound 9 is attained: for 1 frame bit at 44 baud the counts are
518140 and 27271, and `19 × 27271 - 518140 = 9`. -/
theorem count_ratio_nine :
    autotx_bitstoclks 1 44 = some (518140, 27271) ∧
    |((518140 : Nat) : Int) - 19 * ((27271 : Nat) : Int)| = 9 := by
  refine ⟨by decide, by decide⟩

/-- Claim C4 as stated fails: for 10 frame bits at 10 baud `cnt1` is
22798177, above `2 ^ 24 = 16777216`. -/
theorem counts_24bit_counterexample :
    autotx_bitstoclks 10 10 = some (22798177, 1199904) ∧
    ¬ ∃ cnt1 cnt2 : Nat, autotx_bitstoclks 10 10 = some (cnt1, cnt2) ∧
      cnt1 < 2 ^ 24 ∧ cnt2 < 2 ^ 24 := by
  have h : autotx_bitstoclks 10 10 = some (22798177, 1199904) := by decide
  refine ⟨h, ?_⟩
  rintro ⟨cnt1, cnt2, hv, hb⟩
  rw [h] at hv
  simp only [Option.some.injEq, Prod.mk.injEq] at hv
  obtain ⟨rfl, rfl⟩ := hv
  revert hb
  decide

/-- Claim C4, amended: for every positive `frameBits` up to 21 and every
positive `baudRate`, `autotx_bitstoclks` returns counts that are both below
`2 ^ 24` exactly when `frameBits × 10^8 < 73590165 × baudRate`. -/
theorem counts_24bit_iff (bits baud : Int) (hb : 0 < bits) (hb2 : bits ≤ 21) (hr : 0 < baud) :
    ∃ cnt1 cnt2 : Nat, autotx_bitstoclks bits baud = some (cnt1, cnt2) ∧
      ((cnt1 < 2 ^ 24 ∧ cnt2 < 2 ^ 24) ↔ bits * 100000000 < 73590165 * baud) := by
  obtain ⟨f, cnt1, cnt2, hf0, hf1, hf, hv, c1, c2⟩ := autotx_formula bits baud hb hb2 hr
  refine ⟨cnt1, cnt2, hv, ?_⟩
  have hq0 : 0 ≤ bits * 100000000 / baud := Int.ediv_nonneg (by positivity) hr.le
  have key : bits * 100000000 < 73590165 * baud ↔ bits * 100000000 / baud < 73590165 :=
    (Int.ediv_lt_iff_lt_mul hr).symm
  rw [key]
  generalize bits * 100000000 / baud = q at hq0 hf
  have hcnt : (cnt1 < 2 ^ 24 ∧ cnt2 < 2 ^ 24) ↔ f ≤ 73590162 := by
    have e1 : cnt1 < 2 ^ 24 ↔ (cnt1 : Int) < 2 ^ 24 := by
      constructor <;> intro h <;> exact_mod_cast h
    have e2 : cnt2 < 2 ^ 24 ↔ (cnt2 : Int) < 2 ^ 24 := by
      constructor <;> intro h <;> exact_mod_cast h
    rw [e1, e2, c1, c2]
    constructor
    · intro h; omega
    · intro h; constructor <;> omega
  rw [hcnt]
  rcases hq0.lt_or_eq with hpos | hzero
  · by_cases hlo : q < 2 ^ 26
    · -- below the binade of the threshold
      obtain ⟨_, f', hf', herr⟩ := intToFloat_spec q hpos
      have hff : f' = f := by
        have : (f' : ℚ) = (f : ℚ) := by rw [← hf', hf]
        exact_mod_cast this
      subst hff
      obtain ⟨_, e2⟩ := abs_le.mp herr
      have hqq : (q : ℚ) < 2 ^ 26 := by exact_mod_cast hlo
      have : (f' : ℚ) < 73590162 := by
        have : (q : ℚ) / 2 ^ 24 < 4 := by
          rw [div_lt_iff₀ (by norm_num)]; norm_num at hqq ⊢; linarith
        norm_num at hqq
        linarith
      have hfl : f' < 73590162 := by exact_mod_cast this
      constructor
      · intro _; omega
      · intro _; omega
    · by_cases hhi : q < 2 ^ 27
      · have hb26 := intToFloat_binade26 q (by omega) hhi
        have hff : f = 8 * (divRoundEven q.toNat 8 : Nat) := by
          have : (f : ℚ) = ((8 * (divRoundEven q.toNat 8 : Nat) : Int) : ℚ) := by
            rw [← hf, hb26]
          exact_mod_cast this
        rw [hff]
        have hqn : (q.toNat : Int) = q := Int.toNat_of_nonneg hpos.le
        unfold divRoundEven
        simp only
        split_ifs <;> constructor <;> intro h <;> omega
      · obtain ⟨_, f', hf', herr⟩ := intToFloat_spec q hpos
        have hff : f' = f := by
          have : (f' : ℚ) = (f : ℚ) := by rw [← hf', hf]
          exact_mod_cast this
        subst hff
        obtain ⟨e1, _⟩ := abs_le.mp herr
        have hqq : (2 : ℚ) ^ 27 ≤ (q : ℚ) := by exact_mod_cast (not_lt.mp hhi)
        have : (73590162 : ℚ) < f' := by
          have : (q : ℚ) / 2 ^ 24 ≤ q / 2 := by
            rw [div_le_div_iff₀ (by norm_num) (by norm_num)]
            have : (0 : ℚ) ≤ q := by exact_mod_cast hpos.le
            nlinarith
          norm_num at hqq
          linarith
        have hfl : 73590162 < f' := by exact_mod_cast this
        constructor
        · intro _; omega
        · intro _; omega
  · subst hzero
    have : intToFloat 0 = ⟨0, 0⟩ := by decide
    rw [this] at hf
    have hf0' : f = 0 := by
      have : (f : ℚ) = 0 := by rw [← hf]; simp [Flt.toRat]
      exact_mod_cast this
    subst hf0'
    simp

/-- Claim C4, amended, at 10 frame bits and 115200 baud. -/
theorem counts_24bit_iff_witness :
    ((0 : Int) < 10 ∧ (10 : Int) ≤ 21 ∧ (0 : Int) < 115200) ∧
    ∃ cnt1 cnt2 : Nat, autotx_bitstoclks 10 115200 = some (cnt1, cnt2) ∧
      ((cnt1 < 2 ^ 24 ∧ cnt2 < 2 ^ 24) ↔ (10 : Int) * 100000000 < 73590165 * 115200) :=
  ⟨⟨by decide, by decide, by decide⟩,
    counts_24bit_iff 10 115200 (by decide) (by decide) (by decide)⟩

/-! ## Committing the counters: claims C5 to C7 -/

/-- Claim C5: for every 24-bit value `V`, the three bytes the commit code
emits are `(V & 0xff0000) >> 16`, `(V & 0xff00) >> 8` and `V & 0xff`, each
lies in 0..255, and `(b2 << 16) | (b1 << 8) | b0 = V`. -/
theorem counterBytes_roundtrip (V : Nat) (hV : V < 2 ^ 24) :
    counterBytes V = ((V &&& 0xff0000) >>> 16, (V &&& 0xff00) >>> 8, V &&& 0xff) ∧
    (counterBytes V).1 < 256 ∧ (counterBytes V).2.1 < 256 ∧ (counterBytes V).2.2 < 256 ∧
    ((counterBytes V).1 <<< 16) ||| ((counterBytes V).2.1 <<< 8) ||| (counterBytes V).2.2 = V := by
  have hb := counterBytes_eq V
  have m16 : (0xff0000 : Nat) = (2 ^ 8 - 1) <<< 16 := by decide
  have m8 : (0xff00 : Nat) = (2 ^ 8 - 1) <<< 8 := by decide
  have m0 : (0xff : Nat) = 2 ^ 8 - 1 := by decide
  refine ⟨?_, ?_, ?_, ?_, ?_⟩
  · rw [hb, m16, m8, m0, mask_shift, mask_shift, Nat.and_pow_two_sub_one_eq_mod,
      Nat.shiftRight_eq_div_pow, Nat.shiftRight_eq_div_pow]
    norm_num
  · rw [hb]; exact Nat.mod_lt _ (by norm_num)
  · rw [hb]; exact Nat.mod_lt _ (by norm_num)
  · rw [hb]; exact Nat.mod_lt _ (by norm_num)
  · rw [hb]
    simp only
    rw [reassemble _ _ _ (Nat.mod_lt _ (by norm_num)) (Nat.mod_lt _ (by norm_num))]
    omega

/-- Claim C5 at `V = 0x12ab34`. -/
theorem counterBytes_roundtrip_witness :
    0x12ab34 < 2 ^ 24 ∧
    (counterBytes 0x12ab34
        = ((0x12ab34 &&& 0xff0000) >>> 16, (0x12ab34 &&& 0xff00) >>> 8, 0x12ab34 &&& 0xff) ∧
      (counterBytes 0x12ab34).1 < 256 ∧ (counterBytes 0x12ab34).2.1 < 256 ∧
      (counterBytes 0x12ab34).2.2 < 256 ∧
      ((counterBytes 0x12ab34).1 <<< 16) ||| ((counterBytes 0x12ab34).2.1 <<< 8)
        ||| (counterBytes 0x12ab34).2.2 = 0x12ab34) :=
  ⟨by decide, counterBytes_roundtrip 0x12ab34 (by decide)⟩

/-- Claim C7: when a commit arm (`q` or `w`) is reached with `baud = 0` or
`bits = 0`, whatever its argument, the flag emits the diagnostic and no
register access, and `main` returns 1 with the events up to there: no later
flag is processed. -/
theorem commit_unset_aborts (env : Env) (pre rest : List (Char × String)) (c : Char)
    (optarg : String) (s : State) (tr : List Event) (hc : c = 'q' ∨ c = 'w')
    (hfd : env.fpga_init ≠ -1)
    (hpre : flagLoop env env.fpga_init pre State.init [] = Step.next s tr)
    (h0 : s.baud = 0 ∨ s.bits = 0) :
    dispatch env env.fpga_init c optarg s tr = Step.ret 1 [Event.stderr noBaudMsg] ∧
    main env (pre ++ (c, optarg) :: rest) = (some 1, tr ++ [Event.stderr noBaudMsg]) := by
  have hd : dispatch env env.fpga_init c optarg s tr = Step.ret 1 [Event.stderr noBaudMsg] := by
    rcases hc with rfl | rfl <;> simp [dispatch, commitArm, h0]
  refine ⟨hd, ?_⟩
  unfold main
  simp only [if_neg hfd, flagLoop_append, hpre, flagLoop, hd]

/-- Claim C7 for the flags `-b 9600`, then `q` with argument `"1"`, then
`-e 5`: `bits` is still zero, so nothing is written and the status is 1. -/
theorem commit_unset_aborts_witness :
    (('q' = 'q' ∨ 'q' = 'w') ∧ exampleEnv.fpga_init ≠ -1 ∧
      flagLoop exampleEnv exampleEnv.fpga_init [('b', "9600")] State.init []
        = Step.next ⟨0, 0, 9600, 0⟩ [] ∧
      ((9600 : Int) = 0 ∨ (0 : Int) = 0)) ∧
    (dispatch exampleEnv exampleEnv.fpga_init 'q' "1" ⟨0, 0, 9600, 0⟩ []
        = Step.ret 1 [Event.stderr noBaudMsg] ∧
      main exampleEnv ([('b', "9600")] ++ ('q', "1") :: [('e', "5")])
        = (some 1, [] ++ [Event.stderr noBaudMsg])) :=
  ⟨⟨by decide, by decide, by decide, by decide⟩,
    commit_unset_aborts exampleEnv [('b', "9600")] [('e', "5")] 'q' "1" ⟨0, 0, 9600, 0⟩ []
      (by decide) (by decide) (by decide) (by decide)⟩

/-! ## Flags without an address: claim C8 -/

/-- Claim C8: for every flag sequence, a `-v` or `-t` flag with no `-m` flag
before it, when the loop reaches it with the locals `s` after the events `tr`,
emits the diagnostic and nothing else, leaves the locals unchanged and does
not return; the flags after it are processed as without it: the run ends in
the same way (same locals, same status, or killed alike) with the same events,
the diagnostic apart.  In particular `main` returns the same status and makes the same
register accesses as without the flag. -/
theorem skipped_access_flag (env : Env) (pre post : List (Char × String)) (c : Char)
    (optarg : String) (hc : c = 'v' ∨ c = 't') (hpre : ∀ f ∈ pre, f.1 ≠ 'm') :
    (∀ (twifd : Int) (s : State) (tr : List Event),
      flagLoop env twifd pre State.init [] = Step.next s tr →
        dispatch env twifd c optarg s tr = Step.next s [Event.stderr noAddressMsg] ∧
        ∃ b, (flagLoop env twifd (pre ++ post) State.init []).trace = tr ++ b ∧
          flagLoop env twifd (pre ++ (c, optarg) :: post) State.init [] =
            (flagLoop env twifd (pre ++ post) State.init []).withTrace
              (tr ++ Event.stderr noAddressMsg :: b)) ∧
    (main env (pre ++ (c, optarg) :: post)).1 = (main env (pre ++ post)).1 ∧
    (main env (pre ++ (c, optarg) :: post)).2.filter Event.isAccess
      = (main env (pre ++ post)).2.filter Event.isAccess := by
  have step : ∀ (twifd : Int) (s : State) (tr : List Event),
      flagLoop env twifd pre State.init [] = Step.next s tr →
        dispatch env twifd c optarg s tr = Step.next s [Event.stderr noAddressMsg] ∧
        ∃ b, (flagLoop env twifd (pre ++ post) State.init []).trace = tr ++ b ∧
          flagLoop env twifd (pre ++ (c, optarg) :: post) State.init [] =
            (flagLoop env twifd (pre ++ post) State.init []).withTrace
              (tr ++ Event.stderr noAddressMsg :: b) := by
    intro twifd s tr hrun
    have h0 : s.opt_addr = 0 :=
      flagLoop_opt_addr env twifd pre hpre State.init s [] tr rfl hrun
    have hd : dispatch env twifd c optarg s tr = Step.next s [Event.stderr noAddressMsg] := by
      rcases hc with rfl | rfl <;> simp [dispatch, h0]
    refine ⟨hd, ?_⟩
    obtain ⟨b, h1, h2⟩ := flagLoop_insert env twifd tr (Event.stderr noAddressMsg) rfl post s []
    refine ⟨b, ?_, ?_⟩
    · simp only [flagLoop_append, hrun]
      simpa using h1
    · simp only [flagLoop_append, hrun, flagLoop, hd]
      simpa using h2
  refine ⟨step, ?_⟩
  unfold main
  by_cases hfd : env.fpga_init = -1
  · simp [hfd]
  · simp only [if_neg hfd]
    cases hrun : flagLoop env env.fpga_init pre State.init [] with
    | next s tr =>
      obtain ⟨_, b, h1, h2⟩ := step env.fpga_init s tr hrun
      rw [h2]
      cases hr : flagLoop env env.fpga_init (pre ++ post) State.init [] with
      | next s2 tr2 =>
        rw [hr] at h1
        simp only [Step.trace] at h1
        simp [Step.withTrace, h1, List.filter_append, List.filter_cons, Event.isAccess]
      | ret st tr2 =>
        rw [hr] at h1
        simp only [Step.trace] at h1
        simp [Step.withTrace, h1, List.filter_append, List.filter_cons, Event.isAccess]
      | killed tr2 =>
        rw [hr] at h1
        simp only [Step.trace] at h1
        simp [Step.withTrace, h1, List.filter_append, List.filter_cons, Event.isAccess]
    | ret st tr =>
      simp only [flagLoop_append, hrun]
      exact ⟨trivial, trivial⟩
    | killed tr =>
      simp only [flagLoop_append, hrun]
      exact ⟨trivial, trivial⟩

/-- Claim C8 for the flags `-b 9600`, `-v 7`, `-m 5`, `-t`: the status is
that of the run `-b 9600`, `-m 5`, `-t`. -/
theorem skipped_access_flag_witness :
    (('v' = 'v' ∨ 'v' = 't') ∧ ∀ f ∈ [('b', "9600")], f.1 ≠ 'm') ∧
    (main exampleEnv ([('b', "9600")] ++ ('v', "7") :: [('m', "5"), ('t', "")])).1
      = (main exampleEnv ([('b', "9600")] ++ [('m', "5"), ('t', "")])).1 :=
  ⟨⟨by decide, by decide⟩,
    (skipped_access_flag exampleEnv [('b', "9600")] [('m', "5"), ('t', "")] 'v' "7"
      (by decide) (by decide)).2.1⟩

/-! ## The register access façade: claims C9 and C10 -/

/-- Claim C9: for every pin and every argument, `fpgadio_set` and
`fpgadio_ddr` each issue exactly one register write, to the pin's own address,
and no read: `fpgadio_set` writes `0x3` for a true (non-zero) value and `0x1`
for false, `fpgadio_ddr` writes `0x1` for true and `0x0` for false. -/
theorem dio_write_bytes (twifd pin value : Int) :
    fpgadio_set twifd pin value = [Event.poke twifd pin (if value ≠ 0 then 0x3 else 0x1)] ∧
    fpgadio_ddr twifd pin value = [Event.poke twifd pin (if value ≠ 0 then 0x1 else 0x0)] := by
  unfold fpgadio_set fpgadio_ddr
  constructor <;> split_ifs <;> rfl

/-- Claim C10: for every pin and every value the transport returns for the
pin's register, `fpgadio_read` performs exactly one register read, at the
pin's address, and returns 1 if bit 2 (mask `0x4`) of that value is set and 0
otherwise, whatever the other bits. -/
theorem fpgadio_read_bit2 (env : Env) (twifd pin : Int) (tr : List Event) :
    (fpgadio_read env twifd pin tr).2 = [Event.peek twifd pin] ∧
    (fpgadio_read env twifd pin tr).1 =
      if (env.fpeek8 (tr.filter Event.isAccess) twifd pin).testBit 2 then 1 else 0 := by
  unfold fpgadio_read Env.peek
  simp only
  rw [show (256 : Nat) = 2 ^ 8 by norm_num]
  split_ifs with h1 h2 h2
  · exact ⟨rfl, rfl⟩
  · exfalso
    rw [and_four_ne_zero, Nat.testBit_mod_two_pow] at h1
    simp at h1
    exact h2 h1
  · exfalso
    rw [and_four_ne_zero, Nat.testBit_mod_two_pow] at h1
    simp at h1
    rw [h1] at h2
    exact absurd h2 (by simp)
  · exact ⟨rfl, rfl⟩

end Tshwctl
